import Mathlib

/-!
Verification of the context-retrieval engine (engine.py) of the mirrormind
repository.  Text is modelled at the code-point level: a Python `str` is a
`List Nat` of Unicode code points, restricted to the ASCII behaviour of
`str.lower`, `str.isalnum` and `str.isspace` (every string actually occurring
in the repository is ASCII).  Python `set` is modelled by `Finset`.
-/

namespace Mirrormind

set_option maxRecDepth 40000

/-- Code points of a Lean string literal, used to write concrete texts. -/
def codes (s : String) : List Nat :=
  s.data.map Char.toNat

/-- ASCII model of Python `str.lower` on one code point. -/
def lowerCh (c : Nat) : Nat :=
  if 65 ≤ c ∧ c ≤ 90 then c + 32 else c

/-- ASCII model of Python `str.isalnum` on one code point. -/
def isAlnumCh (c : Nat) : Bool :=
  decide ((48 ≤ c ∧ c ≤ 57) ∨ (65 ≤ c ∧ c ≤ 90) ∨ (97 ≤ c ∧ c ≤ 122))

/-- ASCII model of Python `str.isspace` on one code point. -/
def isSpaceCh (c : Nat) : Bool :=
  decide (c = 32 ∨ (9 ≤ c ∧ c ≤ 13))

/-- The predicate of the cleaning comprehension: `c.isalnum() or c.isspace()`. -/
def keepCh (c : Nat) : Bool :=
  isAlnumCh c || isSpaceCh c

/-- Model of the cleaning comprehension of engine.py: keep, from the lowered
text, exactly the code points that are alphanumeric or whitespace. -/
def cleanText (s : List Nat) : List Nat :=
  (s.map lowerCh).filter keepCh

/-- Model of Python `str.split()` with no argument: split on runs of
whitespace, producing no empty tokens.  Written by structural recursion on the
tail, peeking at the next code point to decide whether the current one opens a
new token or extends the first token of the rest. -/
def splitWS : List Nat → List (List Nat)
  | [] => []
  | c :: cs =>
    if isSpaceCh c then splitWS cs
    else
      match cs with
      | [] => [[c]]
      | d :: _ =>
        if isSpaceCh d then [c] :: splitWS cs
        else
          match splitWS cs with
          | t :: ts => (c :: t) :: ts
          | [] => [[c]]

/-- The STOP_WORDS set of engine.py, in source order.  The contraction of I
and am, which contains code point 39, is written as its code-point list
105, 39, 109. -/
def STOP_WORDS : List (List Nat) :=
  ([ "a", "about", "above", "after", "again", "against", "all", "am", "an", "and",
     "any", "are", "as", "at", "be", "because", "been", "before", "being", "below",
     "between", "both", "but", "by", "can", "did", "do", "does", "doing", "down",
     "during", "each", "few", "for", "from", "further", "had", "has", "have", "having",
     "he", "her", "here", "hers", "herself", "him", "himself", "his", "how", "i", "if",
     "in", "into", "is", "it", "its", "itself", "just", "me", "more", "most", "my",
     "myself", "no", "nor", "not", "now", "of", "off", "on", "once", "only", "or",
     "other", "our", "ours", "ourselves", "out", "over", "own", "s", "same", "she",
     "should", "so", "some", "such", "t", "than", "that", "the", "their", "theirs",
     "them", "themselves", "then", "there", "these", "they", "this", "those", "through",
     "to", "too", "under", "until", "up", "very", "was", "we", "were", "what", "when",
     "where", "which", "while", "who", "whom", "why", "will", "with", "you", "your",
     "yours", "yourself", "yourselves" ].map codes) ++
  [[105, 39, 109]] ++
  ([ "thinking", "feeling", "felt", "about", "issues" ].map codes)

/-- The Python set STOP_WORDS. -/
def STOP_WORDS_SET : Finset (List Nat) :=
  STOP_WORDS.toFinset

/-- Model of `set(clean.split()) - STOP_WORDS` applied after cleaning, the
normalization pipeline of `retrieve_relevant_context`. -/
def tokenSet (s : List Nat) : Finset (List Nat) :=
  (splitWS (cleanText s)).toFinset \ STOP_WORDS_SET

/-- An entry of a JSON store: a record with text-valued fields, modelled as an
association list from field names to texts. -/
abbrev Entry := List (String × List Nat)

/-- Model of Python `entry.get(key, "")`. -/
def eget (e : Entry) (key : String) : List Nat :=
  (List.lookup key e).getD []

/-- The `text_key` argument of engine.py: either a single field name or a list
of field names. -/
inductive TextKey where
  | single (key : String)
  | multi (keys : List String)

/-- The field names a `text_key` asks for. -/
def tkKeys : TextKey → List String
  | .single k => [k]
  | .multi ks => ks

/-- The `entry_text_raw` accumulation of `retrieve_relevant_context`: in list
mode each field value is followed by one space, in single mode the value is
taken as is. -/
def entryTextRaw (tk : TextKey) (e : Entry) : List Nat :=
  match tk with
  | .multi ks => (ks.map (fun k => eget e k ++ [32])).flatten
  | .single k => eget e k

/-- The truthiness test `keywords & entry_keywords` of the matching step. -/
def hasOverlap (keywords : Finset (List Nat)) (tk : TextKey) (e : Entry) : Bool :=
  decide ((keywords ∩ tokenSet (entryTextRaw tk e)).Nonempty)

/-- The scanning loop of `retrieve_relevant_context`: walk the (already
reversed) data, append each matching entry to `matches`, and break as soon as
`len(matches) >= max_results` (the break test runs on every iteration). -/
def scanMatches (keywords : Finset (List Nat)) (tk : TextKey) (maxResults : Nat) :
    List Entry → List Entry → List Entry
  | [], acc => acc
  | e :: rest, acc =>
    let acc2 := if hasOverlap keywords tk e then acc ++ [e] else acc
    if maxResults ≤ acc2.length then acc2
    else scanMatches keywords tk maxResults rest acc2

/-- Model of `retrieve_relevant_context(user_input, data, text_key, max_results)`
of engine.py. -/
def retrieve_relevant_context (user_input : List Nat) (data : List Entry)
    (text_key : TextKey) (maxResults : Nat := 2) : List Entry :=
  (scanMatches (tokenSet user_input) text_key maxResults data.reverse []).reverse

/-- One rendered line of `format_context_for_prompt`: in list mode a dash,
the value of the first listed field, a colon, and the value of the second
listed field (the Python code indexes the first two keys and would raise on a
shorter list; the model reads them with a default so as to stay total), in
single mode a dash followed by the field value. -/
def formatLine (tk : TextKey) (item : Entry) : List Nat :=
  match tk with
  | .multi ks => codes "- " ++ eget item (ks.getD 0 "") ++ codes ": " ++ eget item (ks.getD 1 "")
  | .single k => codes "- " ++ eget item k

/-- Model of `format_context_for_prompt(context_data, title, text_key)` of
engine.py; 10 is the newline code point. -/
def format_context_for_prompt (context_data : List Entry) (title : List Nat)
    (tk : TextKey) : List Nat :=
  if context_data.isEmpty then []
  else
    codes "--- Relevant " ++ title ++ codes " ---" ++ [10] ++
      List.intercalate [10] (context_data.map (formatLine tk)) ++ [10] ++
      codes "-------------------------" ++ [10, 10]

/-- Join texts with single spaces, the reassembly used to state idempotence of
normalization (the Python side would be a space-join of the token set). -/
def joinWS : List (List Nat) → List Nat
  | [] => []
  | [t] => t
  | t :: ts => t ++ 32 :: joinWS ts

/-- Split a text at every newline (code point 10), keeping empty segments, as
Python str.split with a newline argument would; used to name the lines of a
formatted block. -/
def splitNL : List Nat → List (List Nat)
  | [] => [[]]
  | c :: cs =>
    if c == 10 then [] :: splitNL cs
    else
      match splitNL cs with
      | t :: ts => (c :: t) :: ts
      | [] => [[c]]

/-- Test whether the second list is a prefix of the first. -/
def startsWith : List Nat → List Nat → Bool
  | _, [] => true
  | [], _ :: _ => false
  | a :: as, b :: bs => a == b && startsWith as bs

/-- Test whether the text `t` occurs contiguously inside the text `s`. -/
def occursIn (t : List Nat) : List Nat → Bool
  | [] => t.isEmpty
  | c :: cs => startsWith (c :: cs) t || occursIn t cs

/-- Modelled from the spec: the similarity transform of `retrieve_semantic`
(absent from src, which only ships the offline index builder), converting a
nearest-neighbor distance to a score. -/
def simOfDist (d : ℚ) : ℚ := 1 / (1 + d)

/-- Modelled from the spec: the filtering step of `retrieve_semantic` — keep
a returned neighbor (id, distance) unless its id is the no-result sentinel -1
or its similarity falls below the threshold. -/
def keptNeighbors (neighbors : List (Int × ℚ)) (threshold : ℚ) : List (Int × ℚ) :=
  neighbors.filter (fun p => p.1 != -1 && decide (threshold ≤ simOfDist p.2))

/-- Modelled from the spec: `retrieve_semantic` paired with the similarity of
each returned entry.  `neighbors` is the (id, distance) list produced by the
nearest-neighbor search, nearest first; ids index the entry sequence.  On an
empty entry list the function returns empty immediately. -/
def semanticResults (entries : List Entry) (neighbors : List (Int × ℚ))
    (threshold : ℚ) : List (Entry × ℚ) :=
  if entries.isEmpty then []
  else (keptNeighbors neighbors threshold).filterMap
    (fun p => (entries.get? p.1.toNat).map (fun e => (e, simOfDist p.2)))

/-- Modelled from the spec: `retrieve_semantic(query, entries, index,
max_results, threshold)` — the entries of `semanticResults`, in the
nearest-first order produced by the search, with no chronological
re-ordering. -/
def retrieve_semantic (entries : List Entry) (neighbors : List (Int × ℚ))
    (threshold : ℚ) : List Entry :=
  (semanticResults entries neighbors threshold).map Prod.fst

/-- The MEMORY_FILE constant of engine.py. -/
def MEMORY_FILE : String := "memory/core_memory.json"

/-- The GOALS_FILE constant of engine.py. -/
def GOALS_FILE : String := "memory/goals.json"

/-- The CONSTITUTION_FILE constant of engine.py. -/
def CONSTITUTION_FILE : String := "user_profile/constitution.yaml"

/-- Model of `load_json_data(filepath)` of engine.py.  The file system is a
map from paths to contents (`none` for an absent file) and `parseJson` models
`json.load`, returning `none` on a decode error.  The Python code returns an
empty list when the file is absent and catches `JSONDecodeError`, returning an
empty list there too. -/
def load_json_data (fs : String → Option String)
    (parseJson : String → Option (List Entry)) (filepath : String) : List Entry :=
  match fs filepath with
  | some content =>
    match parseJson content with
    | some v => v
    | none => []
  | none => []

/-- Model of `load_yaml_data(filepath)` of engine.py.  `parseYaml` models
`yaml.safe_load`, which may fail; the Python code wraps the call in no
try/except, so a parse failure propagates to the caller, which the `Except`
result records.  An absent file yields the empty document. -/
def load_yaml_data {α : Type} (emptyDoc : α) (fs : String → Option String)
    (parseYaml : String → Except String α) (filepath : String) : Except String α :=
  match fs filepath with
  | some content => parseYaml content
  | none => .ok emptyDoc

/-- A MemoryEntry of the memory store, with the fields written by
`save_memory`. -/
structure MemoryEntry where
  timestamp : String
  user_input : String
  assistant_reply : String
  summary : String
  themes : List String
deriving DecidableEq

/-- Model of `save_memory(user_input, assistant_reply, summary)` of engine.py:
append one new entry, with an empty theme list, to the loaded store (the store
file is modelled as the list it holds; the timestamp comes from the clock and
is a parameter). -/
def save_memory (store : List MemoryEntry) (timestamp user_input assistant_reply summary : String) :
    List MemoryEntry :=
  store ++ [⟨timestamp, user_input, assistant_reply, summary, []⟩]

/-- Modelled from the spec: the fixed human-readable error string the
orchestrator substitutes for the reply when the external text generator fails
(src ships a hard-coded mock reply and no generator call, so the exact text is
not in src). -/
def GENERATION_ERROR_STRING : String :=
  "I am sorry - something went wrong while generating a response."

/-- Modelled from the spec: the orchestrator boundary of `get_response`.
Prompt assembly is elided (the claim under verification concerns only the
reply and the memory append); the external text generator is a parameter
returning `none` on failure, in which case the fixed error string becomes the
reply.  In all cases the interaction is appended to the memory store through
`save_memory`, recording the query as both user_input and summary, exactly as
the src `get_response` does with its mock reply. -/
def get_response (generate : String → Option String) (timestamp : String)
    (user_input : String) (store : List MemoryEntry) : String × List MemoryEntry :=
  let reply := (generate user_input).getD GENERATION_ERROR_STRING
  (reply, save_memory store timestamp user_input reply user_input)

/-- A concrete memory entry used by witnesses. -/
def eArt : Entry := [("summary", codes "art project")]

/-- A second, more recent concrete memory entry used by witnesses. -/
def eNew : Entry := [("summary", codes "new art")]

/-- A concrete entry with no fields at all, used by witnesses. -/
def eBare : Entry := []

/-- A generator that always fails, used by witnesses. -/
def genFail : String → Option String := fun _ => none

/-- A concrete file system holding a malformed constitution file and a
malformed memory file, and nothing else. -/
def fsMalformed : String → Option String := fun p =>
  if p = CONSTITUTION_FILE then some "key: [unclosed"
  else if p = MEMORY_FILE then some "not json"
  else none

/-- A JSON parser model that rejects every content, standing for json.load on
malformed text. -/
def parseJsonFail : String → Option (List Entry) := fun _ => none

/-- A YAML parser model that rejects every content, standing for
yaml.safe_load raising YAMLError on malformed text. -/
def parseYamlFail : String → Except String (List (String × String)) :=
  fun _ => .error "while parsing a flow node: expected the node content"

theorem lowerCh_idem (c : Nat) : lowerCh (lowerCh c) = lowerCh c := by
  simp only [lowerCh]
  split
  · split <;> omega
  · rfl

theorem keepCh_lowerCh (c : Nat) : keepCh (lowerCh c) = keepCh c := by
  rw [Bool.eq_iff_iff]
  simp only [keepCh, isAlnumCh, isSpaceCh, lowerCh, Bool.or_eq_true, decide_eq_true_iff]
  split <;> omega

theorem alnum_of_keep_not_space {c : Nat} (hk : keepCh c = true) (hs : isSpaceCh c = false) :
    isAlnumCh c = true := by
  simp only [keepCh, Bool.or_eq_true, hs, Bool.false_eq_true, or_false] at hk
  exact hk

theorem keepCh_of_alnum {c : Nat} (h : isAlnumCh c = true) : keepCh c = true := by
  simp [keepCh, h]

theorem splitWS_cons_space {c : Nat} (cs : List Nat) (hc : isSpaceCh c = true) :
    splitWS (c :: cs) = splitWS cs := by
  simp [splitWS, hc]

theorem splitWS_cons_notspace (c : Nat) (cs : List Nat) (hc : isSpaceCh c = false) :
    splitWS (c :: cs) =
      (c :: cs.takeWhile (fun d => !isSpaceCh d)) ::
        splitWS (cs.dropWhile (fun d => !isSpaceCh d)) := by
  induction cs generalizing c with
  | nil => simp [splitWS, hc]
  | cons d ds ih =>
    by_cases hd : isSpaceCh d = true
    · simp [splitWS, hc, hd, List.takeWhile_cons, List.dropWhile_cons]
    · have hd2 : isSpaceCh d = false := by simpa using hd
      rw [splitWS.eq_def]
      simp only [hc, hd2, Bool.false_eq_true, if_false]
      rw [ih d hd2]
      simp [List.takeWhile_cons, List.dropWhile_cons, hd2]

theorem splitWS_eq_nil (s : List Nat) (h : ∀ c ∈ s, isSpaceCh c = true) : splitWS s = [] := by
  induction s with
  | nil => rfl
  | cons c cs ih =>
    rw [splitWS_cons_space cs (h c (List.mem_cons_self c cs))]
    exact ih (fun d hd => h d (List.mem_cons_of_mem c hd))

theorem length_dropWhile_le (p : Nat → Bool) (l : List Nat) :
    (l.dropWhile p).length ≤ l.length :=
  (List.dropWhile_sublist p).length_le

theorem splitWS_token_props : ∀ s : List Nat, ∀ t ∈ splitWS s,
    t ≠ [] ∧ ∀ c ∈ t, isSpaceCh c = false ∧ c ∈ s
  | [] => by simp [splitWS]
  | c :: cs => by
    by_cases hc : isSpaceCh c = true
    · rw [splitWS_cons_space cs hc]
      intro t ht
      obtain ⟨hne, hp⟩ := splitWS_token_props cs t ht
      exact ⟨hne, fun d hd => ⟨(hp d hd).1, List.mem_cons_of_mem c (hp d hd).2⟩⟩
    · rw [splitWS_cons_notspace c cs (Bool.not_eq_true _ ▸ hc)]
      intro t ht
      rcases List.mem_cons.mp ht with rfl | htl
      · refine ⟨List.cons_ne_nil _ _, fun d hd => ?_⟩
        rcases List.mem_cons.mp hd with rfl | hdt
        · exact ⟨Bool.not_eq_true _ ▸ hc, List.mem_cons_self _ _⟩
        · have hp := List.mem_takeWhile_imp hdt
          refine ⟨by simpa using hp, List.mem_cons_of_mem c ?_⟩
          exact (List.takeWhile_sublist _).subset hdt
      · obtain ⟨hne, hp⟩ :=
          splitWS_token_props (cs.dropWhile (fun d => !isSpaceCh d)) t htl
        refine ⟨hne, fun d hd => ⟨(hp d hd).1, List.mem_cons_of_mem c ?_⟩⟩
        exact (List.dropWhile_sublist _).subset (hp d hd).2
termination_by s => s.length
decreasing_by
  · simp only [List.length_cons]; omega
  · simp only [List.length_cons]
    have := length_dropWhile_le (fun d => !isSpaceCh d) cs
    omega

theorem takeWhile_append_stop (p : Nat → Bool) (u : List Nat) (d : Nat) (v : List Nat)
    (hu : ∀ c ∈ u, p c = true) (hd : p d = false) :
    (u ++ d :: v).takeWhile p = u := by
  induction u with
  | nil => simp [List.takeWhile_cons, hd]
  | cons a as ih =>
    simp only [List.cons_append, List.takeWhile_cons, hu a (List.mem_cons_self a as), if_true]
    rw [ih (fun c hc => hu c (List.mem_cons_of_mem a hc))]

theorem dropWhile_append_stop (p : Nat → Bool) (u : List Nat) (d : Nat) (v : List Nat)
    (hu : ∀ c ∈ u, p c = true) (hd : p d = false) :
    (u ++ d :: v).dropWhile p = d :: v := by
  induction u with
  | nil => simp [List.dropWhile_cons, hd]
  | cons a as ih =>
    simp only [List.cons_append, List.dropWhile_cons, hu a (List.mem_cons_self a as), if_true]
    exact ih (fun c hc => hu c (List.mem_cons_of_mem a hc))

theorem takeWhile_eq_self_of_all (p : Nat → Bool) (u : List Nat)
    (hu : ∀ c ∈ u, p c = true) : u.takeWhile p = u := by
  induction u with
  | nil => rfl
  | cons a as ih =>
    simp only [List.takeWhile_cons, hu a (List.mem_cons_self a as), if_true]
    rw [ih (fun c hc => hu c (List.mem_cons_of_mem a hc))]

theorem dropWhile_eq_nil_of_all (p : Nat → Bool) (u : List Nat)
    (hu : ∀ c ∈ u, p c = true) : u.dropWhile p = [] := by
  induction u with
  | nil => rfl
  | cons a as ih =>
    simp only [List.dropWhile_cons, hu a (List.mem_cons_self a as), if_true]
    exact ih (fun c hc => hu c (List.mem_cons_of_mem a hc))

theorem splitWS_joinWS (l : List (List Nat))
    (h : ∀ t ∈ l, t ≠ [] ∧ ∀ c ∈ t, isSpaceCh c = false) :
    splitWS (joinWS l) = l := by
  induction l with
  | nil => rfl
  | cons t ts ih =>
    obtain ⟨hne, hch⟩ := h t (List.mem_cons_self t ts)
    obtain ⟨c, cs, rfl⟩ : ∃ c cs, t = c :: cs := by
      cases t with
      | nil => exact absurd rfl hne
      | cons c cs => exact ⟨c, cs, rfl⟩
    have hc : isSpaceCh c = false := hch c (List.mem_cons_self c cs)
    have hcs : ∀ d ∈ cs, (!isSpaceCh d) = true := by
      intro d hd
      simp [hch d (List.mem_cons_of_mem c hd)]
    cases ts with
    | nil =>
      show splitWS (c :: cs) = [c :: cs]
      rw [splitWS_cons_notspace c cs hc, takeWhile_eq_self_of_all _ cs hcs,
        dropWhile_eq_nil_of_all _ cs hcs]
      rfl
    | cons t2 ts2 =>
      show splitWS ((c :: cs) ++ 32 :: joinWS (t2 :: ts2)) = (c :: cs) :: t2 :: ts2
      rw [List.cons_append, splitWS_cons_notspace _ _ hc,
        takeWhile_append_stop _ cs 32 _ hcs (by decide),
        dropWhile_append_stop _ cs 32 _ hcs (by decide),
        splitWS_cons_space _ (by decide),
        ih (fun u hu => h u (List.mem_cons_of_mem _ hu))]

theorem mem_joinWS {l : List (List Nat)} {c : Nat} (hc : c ∈ joinWS l) :
    c = 32 ∨ ∃ t ∈ l, c ∈ t := by
  induction l with
  | nil => simp [joinWS] at hc
  | cons t ts ih =>
    cases ts with
    | nil =>
      exact Or.inr ⟨t, List.mem_cons_self t [], hc⟩
    | cons t2 ts2 =>
      rcases List.mem_append.mp hc with hct | hrest
      · exact Or.inr ⟨t, List.mem_cons_self _ _, hct⟩
      · rcases List.mem_cons.mp hrest with rfl | hjoin
        · exact Or.inl rfl
        · rcases ih hjoin with h32 | ⟨u, hu, hcu⟩
          · exact Or.inl h32
          · exact Or.inr ⟨u, List.mem_cons_of_mem t hu, hcu⟩

theorem mem_cleanText {s : List Nat} {c : Nat} (hc : c ∈ cleanText s) :
    lowerCh c = c ∧ keepCh c = true := by
  simp only [cleanText, List.mem_filter, List.mem_map] at hc
  obtain ⟨⟨c0, _, rfl⟩, hk⟩ := hc
  exact ⟨lowerCh_idem c0, hk⟩

theorem mem_tokenSet {s t : List Nat} (ht : t ∈ tokenSet s) :
    t ≠ [] ∧ (∀ c ∈ t, isSpaceCh c = false ∧ isAlnumCh c = true ∧ lowerCh c = c) ∧
      t ∉ STOP_WORDS_SET := by
  rw [tokenSet, Finset.mem_sdiff, List.mem_toFinset] at ht
  obtain ⟨hmem, hstop⟩ := ht
  obtain ⟨hne, hprops⟩ := splitWS_token_props _ t hmem
  refine ⟨hne, fun c hc => ?_, hstop⟩
  obtain ⟨hsp, hin⟩ := hprops c hc
  obtain ⟨hlow, hkeep⟩ := mem_cleanText hin
  exact ⟨hsp, alnum_of_keep_not_space hkeep hsp, hlow⟩

theorem cleanText_joinWS {s : List Nat} (l : List (List Nat))
    (hl : ∀ t ∈ l, t ∈ tokenSet s) : cleanText (joinWS l) = joinWS l := by
  have hfix : ∀ c ∈ joinWS l, lowerCh c = c ∧ keepCh c = true := by
    intro c hc
    rcases mem_joinWS hc with rfl | ⟨t, htl, hct⟩
    · exact ⟨by decide, by decide⟩
    · obtain ⟨-, hprops, -⟩ := mem_tokenSet (hl t htl)
      obtain ⟨-, halnum, hlow⟩ := hprops c hct
      exact ⟨hlow, keepCh_of_alnum halnum⟩
  rw [cleanText]
  have hmap : (joinWS l).map lowerCh = joinWS l := by
    rw [show (joinWS l).map lowerCh = (joinWS l).map id from
      List.map_congr_left (fun c hc => (hfix c hc).1), List.map_id]
  rw [hmap, List.filter_eq_self.mpr (fun c hc => (hfix c hc).2)]

/-- C8: normalization is idempotent and case- and punctuation-insensitive.
For every text `s` and every list `l` of tokens whose set is `tokenSet s`
(a reassembly of the normalized token set), normalizing the space-join of `l`
returns the same token set; lowercasing `s` first, or deleting its
non-alphanumeric non-whitespace code points first, also leaves the token set
unchanged. -/
theorem tokenSet_clean_stable (s : List Nat) (l : List (List Nat))
    (hl : l.toFinset = tokenSet s) :
    tokenSet (joinWS l) = tokenSet s ∧
    tokenSet (s.map lowerCh) = tokenSet s ∧
    tokenSet (s.filter keepCh) = tokenSet s := by
  have hmem : ∀ t ∈ l, t ∈ tokenSet s := fun t ht => hl ▸ List.mem_toFinset.mpr ht
  refine ⟨?_, ?_, ?_⟩
  · have h1 : cleanText (joinWS l) = joinWS l := cleanText_joinWS l hmem
    have h2 : splitWS (joinWS l) = l := by
      apply splitWS_joinWS
      intro t ht
      obtain ⟨hne, hprops, -⟩ := mem_tokenSet (hmem t ht)
      exact ⟨hne, fun c hc => (hprops c hc).1⟩
    rw [tokenSet, h1, h2, hl, tokenSet, Finset.sdiff_idem]
  · have hclean : cleanText (s.map lowerCh) = cleanText s := by
      rw [cleanText, cleanText, List.map_map]
      exact congrArg _ (List.map_congr_left (fun c _ => lowerCh_idem c))
    rw [tokenSet, hclean, tokenSet]
  · have hclean : cleanText (s.filter keepCh) = cleanText s := by
      rw [cleanText, cleanText]
      have h3 : (s.map lowerCh).filter keepCh = (s.filter keepCh).map lowerCh := by
        rw [List.filter_map]
        exact congrArg _ (List.filter_congr (fun c _ => keepCh_lowerCh c))
      rw [← h3, List.filter_filter]
      exact List.filter_congr (fun c _ => by simp)
    rw [tokenSet, hclean, tokenSet]

theorem tokenSet_clean_stable_witness :
    ([codes "art"] : List (List Nat)).toFinset = tokenSet (codes "Art!") ∧
    (tokenSet (joinWS [codes "art"]) = tokenSet (codes "Art!") ∧
     tokenSet ((codes "Art!").map lowerCh) = tokenSet (codes "Art!") ∧
     tokenSet ((codes "Art!").filter keepCh) = tokenSet (codes "Art!")) :=
  ⟨by decide, tokenSet_clean_stable (codes "Art!") [codes "art"] (by decide)⟩

theorem scanMatches_eq (kw : Finset (List Nat)) (tk : TextKey) (k : Nat) (l : List Entry) :
    ∀ acc : List Entry, acc.length < k →
      scanMatches kw tk k l acc =
        acc ++ (l.filter (fun e => hasOverlap kw tk e)).take (k - acc.length) := by
  induction l with
  | nil => intro acc _; simp [scanMatches]
  | cons e rest ih =>
    intro acc hlt
    simp only [scanMatches]
    by_cases hp : hasOverlap kw tk e = true
    · simp only [hp, if_true]
      by_cases hbr : k ≤ (acc ++ [e]).length
      · rw [if_pos hbr]
        have hk1 : k - acc.length = 1 := by
          simp only [List.length_append, List.length_cons, List.length_nil] at hbr
          omega
        rw [List.filter_cons_of_pos hp, hk1, show (1 : Nat) = 0 + 1 from rfl,
          List.take_succ_cons, List.take_zero]
      · rw [if_neg hbr]
        have hlt2 : (acc ++ [e]).length < k := by omega
        rw [ih (acc ++ [e]) hlt2, List.filter_cons_of_pos hp]
        have hk2 : k - acc.length = (k - (acc ++ [e]).length) + 1 := by
          simp only [List.length_append, List.length_cons, List.length_nil] at hbr ⊢
          omega
        rw [hk2, List.take_succ_cons, List.append_assoc, List.singleton_append]
    · have hp2 : hasOverlap kw tk e = false := by simpa using hp
      simp only [hp2, Bool.false_eq_true, if_false]
      rw [if_neg (by omega), ih acc hlt, List.filter_cons_of_neg hp]

theorem mem_of_mem_scanMatches (kw : Finset (List Nat)) (tk : TextKey) (k : Nat)
    (l : List Entry) :
    ∀ (acc : List Entry) (e : Entry), e ∈ scanMatches kw tk k l acc →
      e ∈ acc ∨ hasOverlap kw tk e = true := by
  induction l with
  | nil => intro acc e he; simp only [scanMatches] at he; exact Or.inl he
  | cons e0 rest ih =>
    intro acc e he
    simp only [scanMatches] at he
    by_cases hp : hasOverlap kw tk e0 = true
    · simp only [hp, if_true] at he
      by_cases hbr : k ≤ (acc ++ [e0]).length
      · rw [if_pos hbr] at he
        rcases List.mem_append.mp he with h | h
        · exact Or.inl h
        · rw [List.mem_singleton] at h
          subst h
          exact Or.inr hp
      · rw [if_neg hbr] at he
        rcases ih _ e he with h | h
        · rcases List.mem_append.mp h with h1 | h1
          · exact Or.inl h1
          · rw [List.mem_singleton] at h1
            subst h1
            exact Or.inr hp
        · exact Or.inr h
    · have hp2 : hasOverlap kw tk e0 = false := by simpa using hp
      simp only [hp2, Bool.false_eq_true, if_false] at he
      by_cases hbr : k ≤ acc.length
      · rw [if_pos hbr] at he
        exact Or.inl he
      · rw [if_neg hbr] at he
        exact ih _ e he

theorem scanMatches_sublist (kw : Finset (List Nat)) (tk : TextKey) (k : Nat)
    (l : List Entry) :
    ∀ acc : List Entry, ∃ t : List Entry,
      scanMatches kw tk k l acc = acc ++ t ∧ t.Sublist l := by
  induction l with
  | nil => intro acc; exact ⟨[], by simp [scanMatches], List.nil_sublist []⟩
  | cons e0 rest ih =>
    intro acc
    by_cases hp : hasOverlap kw tk e0 = true
    · by_cases hbr : k ≤ (acc ++ [e0]).length
      · exact ⟨[e0], by simp only [scanMatches, hp, if_true, if_pos hbr],
          (List.nil_sublist rest).cons₂ e0⟩
      · obtain ⟨t, ht, hsub⟩ := ih (acc ++ [e0])
        refine ⟨e0 :: t, ?_, hsub.cons₂ e0⟩
        simp only [scanMatches, hp, if_true, if_neg hbr, ht, List.append_assoc,
          List.singleton_append]
    · have hp2 : hasOverlap kw tk e0 = false := by simpa using hp
      by_cases hbr : k ≤ acc.length
      · refine ⟨[], ?_, List.nil_sublist _⟩
        simp only [scanMatches, hp2, Bool.false_eq_true, if_false, if_pos hbr,
          List.append_nil]
      · obtain ⟨t, ht, hsub⟩ := ih acc
        exact ⟨t, by simp only [scanMatches, hp2, Bool.false_eq_true, if_false,
          if_neg hbr, ht], hsub.cons e0⟩

/-- C1 (amended to max_results at least 1): for every query, entry list,
text-field specification and max_results `k ≥ 1`, keyword retrieval returns
exactly the `k` most recent entries sharing a non-stop-word token with the
query — the last `k` elements, in order, of the matching entries in original
sequence order (all of them if fewer than `k` match). -/
theorem retrieve_keyword_k_most_recent (q : List Nat) (data : List Entry)
    (tk : TextKey) (k : Nat) (hk : 1 ≤ k) :
    retrieve_relevant_context q data tk k =
      (data.filter (fun e => hasOverlap (tokenSet q) tk e)).rtake k := by
  rw [retrieve_relevant_context,
    scanMatches_eq (tokenSet q) tk k data.reverse [] (by simpa using hk)]
  simp only [List.nil_append, Nat.sub_zero, List.length_nil]
  rw [List.filter_reverse, List.rtake_eq_reverse_take_reverse]

theorem retrieve_keyword_k_most_recent_witness :
    1 ≤ 1 ∧
    retrieve_relevant_context (codes "art") [eArt, eNew] (.single "summary") 1 =
      (([eArt, eNew] : List Entry).filter
        (fun e => hasOverlap (tokenSet (codes "art")) (.single "summary") e)).rtake 1 :=
  ⟨Nat.le_refl 1,
    retrieve_keyword_k_most_recent (codes "art") [eArt, eNew] (.single "summary") 1
      (Nat.le_refl 1)⟩

/-- C1 counterexample: at max_results = 0 the break test fires only after the
first (most recent) entry has been examined and possibly collected, so with a
matching most-recent entry the function returns that entry rather than the
zero most recent matching entries (the empty list) the claim demands. -/
theorem retrieve_keyword_zero_cex :
    retrieve_relevant_context (codes "art") [eArt] (.single "summary") 0 = [eArt] ∧
    (([eArt] : List Entry).filter
      (fun e => hasOverlap (tokenSet (codes "art")) (.single "summary") e)).rtake 0 = [] ∧
    retrieve_relevant_context (codes "art") [eArt] (.single "summary") 0 ≠
      (([eArt] : List Entry).filter
        (fun e => hasOverlap (tokenSet (codes "art")) (.single "summary") e)).rtake 0 := by
  refine ⟨by decide, by decide, ?_⟩
  intro h
  rw [show (([eArt] : List Entry).filter
      (fun e => hasOverlap (tokenSet (codes "art")) (.single "summary") e)).rtake 0 = []
    from by decide] at h
  exact absurd h (by decide)

/-- C9: keyword retrieval returns a subsequence of its input entry list —
every returned entry is one of the input entries, in original order; in this
pure embedding neither retrieval nor formatting can mutate the entries. -/
theorem retrieve_keyword_sublist (q : List Nat) (data : List Entry) (tk : TextKey)
    (k : Nat) :
    (retrieve_relevant_context q data tk k).Sublist data := by
  obtain ⟨t, ht, hsub⟩ := scanMatches_sublist (tokenSet q) tk k data.reverse []
  rw [retrieve_relevant_context, ht, List.nil_append]
  have := hsub.reverse
  rwa [List.reverse_reverse] at this

/-- C2 (amended to max_results at least 1): keyword retrieval over a non-empty
entry list returns at most `k` entries, and every returned entry shares at
least one non-stop-word token with the query under the cleaning pipeline. -/
theorem retrieve_keyword_capped_relevant (q : List Nat) (data : List Entry)
    (tk : TextKey) (k : Nat) (_hdata : data ≠ []) (hk : 1 ≤ k) :
    (retrieve_relevant_context q data tk k).length ≤ k ∧
    ∀ e ∈ retrieve_relevant_context q data tk k,
      (tokenSet q ∩ tokenSet (entryTextRaw tk e)).Nonempty := by
  constructor
  · rw [retrieve_relevant_context,
      scanMatches_eq (tokenSet q) tk k data.reverse [] (by simpa using hk)]
    simp only [List.nil_append, List.length_nil, Nat.sub_zero, List.length_reverse]
    exact List.length_take_le k _
  · intro e he
    rw [retrieve_relevant_context, List.mem_reverse] at he
    rcases mem_of_mem_scanMatches (tokenSet q) tk k data.reverse [] e he with h | h
    · exact absurd h (List.not_mem_nil e)
    · rw [hasOverlap] at h
      exact of_decide_eq_true h

theorem retrieve_keyword_capped_relevant_witness :
    ([eArt] : List Entry) ≠ [] ∧ 1 ≤ 1 ∧
    ((retrieve_relevant_context (codes "art") [eArt] (.single "summary") 1).length ≤ 1 ∧
     ∀ e ∈ retrieve_relevant_context (codes "art") [eArt] (.single "summary") 1,
       (tokenSet (codes "art") ∩ tokenSet (entryTextRaw (.single "summary") e)).Nonempty) :=
  ⟨by decide, Nat.le_refl 1,
    retrieve_keyword_capped_relevant (codes "art") [eArt] (.single "summary") 1
      (by decide) (Nat.le_refl 1)⟩

/-- C2 counterexample: at max_results = 0, with a matching most-recent entry,
keyword retrieval returns one entry, exceeding the claimed bound of zero. -/
theorem retrieve_keyword_zero_length_cex :
    (retrieve_relevant_context (codes "art") [eArt] (.single "summary") 0).length = 1 ∧
    ¬ (retrieve_relevant_context (codes "art") [eArt] (.single "summary") 0).length ≤ 0 :=
  ⟨by decide, by decide⟩

theorem tokenSet_all_space (s : List Nat) (h : ∀ c ∈ s, c = 32) : tokenSet s = ∅ := by
  have hclean : cleanText s = s := by
    rw [cleanText]
    have hmap : s.map lowerCh = s := by
      have hcongr := List.map_congr_left (l := s) (f := lowerCh) (g := id)
        (fun c hc => by rw [h c hc]; decide)
      rwa [List.map_id] at hcongr
    rw [hmap, List.filter_eq_self.mpr (fun c hc => by rw [h c hc]; decide)]
  rw [tokenSet, hclean, splitWS_eq_nil s (fun c hc => by rw [h c hc]; decide),
    List.toFinset_nil, Finset.empty_sdiff]

/-- C10: an entry lacking every requested text field contributes no tokens, is
never returned by keyword retrieval, and the formatter renders it with empty
strings in place of the missing fields; every function involved is total, so
nothing can be raised. -/
theorem missing_fields_harmless (q : List Nat) (data : List Entry) (tk : TextKey)
    (k : Nat) (e : Entry) (hmiss : ∀ key ∈ tkKeys tk, List.lookup key e = none) :
    tokenSet (entryTextRaw tk e) = ∅ ∧
    e ∉ retrieve_relevant_context q data tk k ∧
    (∀ key, tk = .single key → formatLine tk e = codes "- ") ∧
    (∀ ks, tk = .multi ks → 2 ≤ ks.length →
      formatLine tk e = codes "- " ++ codes ": ") := by
  have hget : ∀ key ∈ tkKeys tk, eget e key = [] := by
    intro key hkey
    rw [eget, hmiss key hkey]
    rfl
  have htok : tokenSet (entryTextRaw tk e) = ∅ := by
    cases tk with
    | single key =>
      simp only [entryTextRaw]
      rw [hget key (by simp [tkKeys])]
      exact tokenSet_all_space [] (fun c hc => absurd hc (List.not_mem_nil c))
    | multi ks =>
      apply tokenSet_all_space
      intro c hc
      simp only [entryTextRaw, List.mem_flatten] at hc
      obtain ⟨u, hu, hcu⟩ := hc
      rw [List.mem_map] at hu
      obtain ⟨key, hkey, rfl⟩ := hu
      rw [hget key (by simpa [tkKeys] using hkey)] at hcu
      simpa using hcu
  refine ⟨htok, ?_, ?_, ?_⟩
  · intro he
    rw [retrieve_relevant_context, List.mem_reverse] at he
    rcases mem_of_mem_scanMatches (tokenSet q) tk k data.reverse [] e he with h | h
    · exact absurd h (List.not_mem_nil e)
    · rw [hasOverlap, htok, Finset.inter_empty] at h
      exact absurd (of_decide_eq_true h) Finset.not_nonempty_empty
  · rintro key rfl
    simp only [formatLine]
    rw [hget key (by simp [tkKeys]), List.append_nil]
  · rintro ks rfl h2
    simp only [formatLine]
    have h0 : ks.getD 0 "" ∈ ks := by
      rw [List.getD_eq_getElem?_getD, List.getElem?_eq_getElem (by omega)]
      exact List.getElem_mem _
    have h1 : ks.getD 1 "" ∈ ks := by
      rw [List.getD_eq_getElem?_getD, List.getElem?_eq_getElem (by omega)]
      exact List.getElem_mem _
    rw [hget _ (by simpa [tkKeys] using h0), hget _ (by simpa [tkKeys] using h1)]
    simp only [List.append_nil]

theorem missing_fields_harmless_witness :
    (∀ key ∈ tkKeys (.single "summary"), List.lookup key (eBare : Entry) = none) ∧
    (tokenSet (entryTextRaw (.single "summary") eBare) = ∅ ∧
     eBare ∉ retrieve_relevant_context (codes "art") [eArt] (.single "summary") 2 ∧
     (∀ key, (TextKey.single "summary") = .single key →
        formatLine (.single "summary") eBare = codes "- ") ∧
     (∀ ks, (TextKey.single "summary") = .multi ks → 2 ≤ ks.length →
        formatLine (.single "summary") eBare = codes "- " ++ codes ": ")) :=
  ⟨by decide,
    missing_fields_harmless (codes "art") [eArt] (.single "summary") 2 eBare (by decide)⟩

/-- C4: both retrieval entry points return the empty sequence on an empty
entry list, for every query, field specification, max_results, neighbor list
and threshold; both are total functions, so nothing is raised. -/
theorem retrieval_empty_entries (q : List Nat) (tk : TextKey) (k : Nat)
    (neighbors : List (Int × ℚ)) (thr : ℚ) :
    retrieve_relevant_context q [] tk k = [] ∧
    retrieve_semantic [] neighbors thr = [] :=
  ⟨rfl, rfl⟩

/-- C3: semantic retrieval converts each nearest-neighbor distance `d` to the
similarity `1 / (1 + d)`, never returns an entry whose similarity is below the
threshold, and returns the kept entries in non-increasing similarity order
with no chronological re-ordering (spec-modelled; no semantic retrieval code
ships under src).  The hypotheses state what the nearest-neighbor search
guarantees: distances come back nearest first and are non-negative. -/
theorem retrieve_semantic_spec (entries : List Entry) (neighbors : List (Int × ℚ))
    (thr : ℚ) (hsort : neighbors.Pairwise (fun p r => p.2 ≤ r.2))
    (hnn : ∀ p ∈ neighbors, 0 ≤ p.2) :
    (∀ r ∈ semanticResults entries neighbors thr, thr ≤ r.2) ∧
    (semanticResults entries neighbors thr).Pairwise (fun a b => b.2 ≤ a.2) ∧
    (∀ d : ℚ, simOfDist d = 1 / (1 + d)) ∧
    retrieve_semantic entries neighbors thr =
      (semanticResults entries neighbors thr).map Prod.fst := by
  refine ⟨?_, ?_, fun d => rfl, rfl⟩
  · intro r hr
    rw [semanticResults] at hr
    split at hr
    · exact absurd hr (List.not_mem_nil r)
    · rw [List.mem_filterMap] at hr
      obtain ⟨p, hpmem, hpeq⟩ := hr
      rw [keptNeighbors, List.mem_filter, Bool.and_eq_true] at hpmem
      obtain ⟨-, -, hthr⟩ := hpmem
      rw [Option.map_eq_some'] at hpeq
      obtain ⟨e1, -, rfl⟩ := hpeq
      exact of_decide_eq_true hthr
  · have hsort2 : neighbors.Pairwise (fun p r => simOfDist r.2 ≤ simOfDist p.2) := by
      have hmem := List.Pairwise.and_mem.mp hsort
      refine hmem.imp ?_
      rintro p r ⟨hp, hr, hle⟩
      have h0 : 0 ≤ p.2 := hnn p hp
      rw [simOfDist, simOfDist]
      apply one_div_le_one_div_of_le
      · linarith
      · linarith
    rw [semanticResults]
    split
    · exact List.Pairwise.nil
    · have hkept : (keptNeighbors neighbors thr).Pairwise
          (fun p r => simOfDist r.2 ≤ simOfDist p.2) :=
        hsort2.filter _
      rw [List.pairwise_filterMap]
      refine hkept.imp ?_
      intro p r h
      intro b hb b2 hb2
      rw [Option.mem_def, Option.map_eq_some'] at hb hb2
      obtain ⟨e1, -, rfl⟩ := hb
      obtain ⟨e2, -, rfl⟩ := hb2
      exact h

theorem retrieve_semantic_spec_witness :
    ([((0 : Int), (0 : ℚ)), (1, 1)] : List (Int × ℚ)).Pairwise (fun p r => p.2 ≤ r.2) ∧
    (∀ p ∈ ([((0 : Int), (0 : ℚ)), (1, 1)] : List (Int × ℚ)), 0 ≤ p.2) ∧
    ((∀ r ∈ semanticResults [eArt, eNew] [((0 : Int), (0 : ℚ)), (1, 1)] (1 / 2),
        (1 : ℚ) / 2 ≤ r.2) ∧
     (semanticResults [eArt, eNew] [((0 : Int), (0 : ℚ)), (1, 1)] (1 / 2)).Pairwise
        (fun a b => b.2 ≤ a.2) ∧
     (∀ d : ℚ, simOfDist d = 1 / (1 + d)) ∧
     retrieve_semantic [eArt, eNew] [((0 : Int), (0 : ℚ)), (1, 1)] (1 / 2) =
       (semanticResults [eArt, eNew] [((0 : Int), (0 : ℚ)), (1, 1)] (1 / 2)).map
         Prod.fst) := by
  have hsort : ([((0 : Int), (0 : ℚ)), (1, 1)] : List (Int × ℚ)).Pairwise
      (fun p r => p.2 ≤ r.2) := by
    refine List.Pairwise.cons (fun r hr => ?_) ?_
    · rcases List.mem_singleton.mp hr with rfl
      exact zero_le_one
    · exact List.Pairwise.cons (fun r hr => absurd hr (List.not_mem_nil r))
        List.Pairwise.nil
  have hnn : ∀ p ∈ ([((0 : Int), (0 : ℚ)), (1, 1)] : List (Int × ℚ)), 0 ≤ p.2 := by
    intro p hp
    rcases List.mem_cons.mp hp with rfl | hp2
    · exact le_refl 0
    · rcases List.mem_singleton.mp hp2 with rfl
      exact zero_le_one
  exact ⟨hsort, hnn,
    retrieve_semantic_spec [eArt, eNew] [((0 : Int), (0 : ℚ)), (1, 1)] (1 / 2) hsort hnn⟩

theorem startsWith_self_append (t b : List Nat) : startsWith (t ++ b) t = true := by
  induction t with
  | nil => cases b <;> simp [startsWith]
  | cons a as ih => simp [startsWith, ih]

theorem occursIn_nil (s : List Nat) : occursIn [] s = true := by
  cases s <;> simp [occursIn, startsWith]

theorem occursIn_middle (a t b : List Nat) : occursIn t (a ++ t ++ b) = true := by
  induction a with
  | nil =>
    simp only [List.nil_append]
    cases t with
    | nil => exact occursIn_nil b
    | cons c cs =>
      have hsw := startsWith_self_append (c :: cs) b
      simp only [List.cons_append] at hsw ⊢
      simp [occursIn, hsw]
  | cons a0 as ih =>
    simp only [List.cons_append, occursIn, List.append_eq, ih, Bool.or_true]

/-- C5 (amended: only the header delimiter line contains the title; the footer
delimiter line is a fixed dash line): the formatter returns the empty string
for an empty entry list, and otherwise renders one line per entry in the
field mode given by `text_key`, wraps the newline-joined lines between a
header line containing the title and the fixed footer line, and ends the
block with one blank line. -/
theorem format_block_shape (title : List Nat) (tk : TextKey) :
    format_context_for_prompt [] title tk = [] ∧
    ∀ ctx : List Entry, ctx ≠ [] →
      format_context_for_prompt ctx title tk =
        codes "--- Relevant " ++ title ++ codes " ---" ++ [10] ++
          List.intercalate [10] (ctx.map (formatLine tk)) ++ [10] ++
          codes "-------------------------" ++ [10, 10] ∧
      occursIn title (codes "--- Relevant " ++ title ++ codes " ---") = true := by
  refine ⟨rfl, ?_⟩
  intro ctx hne
  constructor
  · rw [format_context_for_prompt, if_neg (by simpa [List.isEmpty_iff] using hne)]
  · exact occursIn_middle (codes "--- Relevant ") title (codes " ---")

theorem format_block_shape_witness :
    ([eArt] : List Entry) ≠ [] ∧
    (format_context_for_prompt [eArt] (codes "Memories") (.single "summary") =
        codes "--- Relevant " ++ codes "Memories" ++ codes " ---" ++ [10] ++
          List.intercalate [10]
            (([eArt] : List Entry).map (formatLine (.single "summary"))) ++ [10] ++
          codes "-------------------------" ++ [10, 10] ∧
      occursIn (codes "Memories")
        (codes "--- Relevant " ++ codes "Memories" ++ codes " ---") = true) :=
  ⟨by decide,
    (format_block_shape (codes "Memories") (.single "summary")).2 [eArt] (by decide)⟩

/-- C5 counterexample: with title Memories, the third line of the rendered
block — its footer delimiter line — is the fixed dash line, which does not
contain the title, against the claim that both delimiter lines contain it. -/
theorem format_footer_lacks_title_cex :
    (splitNL (format_context_for_prompt [eArt] (codes "Memories")
        (.single "summary"))).getD 2 [] = codes "-------------------------" ∧
    occursIn (codes "Memories") (codes "-------------------------") = false :=
  ⟨by decide, by decide⟩

/-- C6: a malformed or absent JSON store file degrades to the empty list with
no error, and an absent YAML file degrades to the empty document, but a
malformed YAML constitution file makes `load_yaml_data` surface the parser
error, because nothing catches it — evaluated at concrete failing contents. -/
theorem load_yaml_error_surfaces :
    load_json_data fsMalformed parseJsonFail MEMORY_FILE = [] ∧
    load_json_data fsMalformed parseJsonFail GOALS_FILE = [] ∧
    load_yaml_data ([] : List (String × String)) (fun _ => none) parseYamlFail
      CONSTITUTION_FILE = .ok [] ∧
    load_yaml_data ([] : List (String × String)) fsMalformed parseYamlFail
      CONSTITUTION_FILE =
      .error "while parsing a flow node: expected the node content" :=
  ⟨rfl, rfl, rfl, rfl⟩

/-- C7: every orchestrator call appends exactly one new MemoryEntry to the
memory store before returning, recording the query as user_input and summary,
the produced reply as assistant_reply, and an empty theme list — also when
the generator fails and the fixed error string is substituted as the reply
(spec-modelled; src ships a mock generator that cannot fail). -/
theorem get_response_records_interaction (generate : String → Option String)
    (ts user_input : String) (store : List MemoryEntry) :
    (get_response generate ts user_input store).2 =
      store ++ [⟨ts, user_input, (get_response generate ts user_input store).1,
                 user_input, []⟩] ∧
    (generate user_input = none →
      (get_response generate ts user_input store).1 = GENERATION_ERROR_STRING) ∧
    ∀ r, generate user_input = some r →
      (get_response generate ts user_input store).1 = r := by
  refine ⟨rfl, ?_, ?_⟩
  · intro h
    simp [get_response, h]
  · intro r h
    simp [get_response, h]

theorem get_response_records_interaction_witness :
    (get_response genFail "2025-07-18T00:00:00Z" "hello" []).2 =
      [] ++ [⟨"2025-07-18T00:00:00Z", "hello",
              (get_response genFail "2025-07-18T00:00:00Z" "hello" []).1,
              "hello", []⟩] ∧
    (get_response genFail "2025-07-18T00:00:00Z" "hello" []).1 =
      GENERATION_ERROR_STRING :=
  ⟨(get_response_records_interaction genFail "2025-07-18T00:00:00Z" "hello" []).1,
   (get_response_records_interaction genFail "2025-07-18T00:00:00Z" "hello" []).2.1 rfl⟩

end Mirrormind
